import Mathlib

/-!
Shallow embedding of the BreezeDB storage engine (TypeScript sources:
`src/utils.ts`, `src/ttl-manager.ts`, `src/persistence.ts`, `src/index.ts`)
and proofs about its specification claims.

Modelling conventions:
- A JavaScript `Map<string, α>` is modelled as an insertion-ordered
  association list with pairwise-distinct keys (`MapJS α`); `Map.get`,
  `Map.set`, `Map.delete`, `Map.has` are `mget`, `mset`, `mdel`, `mhas`.
- Wall-clock instants (`Date.now()`, milliseconds) and JS finite numbers
  are rationals (`ℚ`); the special values `NaN`, `±Infinity` and
  non-number inputs appear explicitly in the input types used by the
  validators.
- Fallible code returns `Except String α`, the `String` being the thrown
  `Error`'s message exactly as in the source.
-/

namespace BreezeDB

/-- JSON-serializable JavaScript values (the payloads stored in the DB). -/
inductive JVal where
  | jnull : JVal
  | jbool : Bool → JVal
  | jnum : ℚ → JVal
  | jstr : String → JVal
  | jarr : List JVal → JVal
  | jobj : List (String × JVal) → JVal

/-- A JavaScript `Map` with string keys: insertion-ordered association list. -/
abbrev MapJS (α : Type) : Type := List (String × α)

namespace MapJS

/-- The keys of a JS `Map` are pairwise distinct. -/
def NodupKeys {α : Type} (m : MapJS α) : Prop := (m.map Prod.fst).Nodup

instance {α : Type} (m : MapJS α) : Decidable (NodupKeys m) := by
  unfold NodupKeys; infer_instance

/-- `Map.prototype.get` -/
def mget {α : Type} (m : MapJS α) (k : String) : Option α :=
  match m with
  | [] => none
  | (k', v) :: rest => if k' = k then some v else mget rest k

/-- `Map.prototype.has` -/
def mhas {α : Type} (m : MapJS α) (k : String) : Bool :=
  (mget m k).isSome

/-- `Map.prototype.set`: updates in place if the key is present (keeping its
position), otherwise appends at the end — JS `Map` insertion order. -/
def mset {α : Type} (m : MapJS α) (k : String) (v : α) : MapJS α :=
  match m with
  | [] => [(k, v)]
  | (k', v') :: rest => if k' = k then (k', v) :: rest else (k', v') :: mset rest k v

/-- `Map.prototype.delete` (the state change; the returned Bool is `mhas`). -/
def mdel {α : Type} (m : MapJS α) (k : String) : MapJS α :=
  match m with
  | [] => []
  | (k', v') :: rest => if k' = k then rest else (k', v') :: mdel rest k

/-- Keys list (`Array.from(map.keys())`). -/
def mkeys {α : Type} (m : MapJS α) : List String := m.map Prod.fst

@[simp] theorem mget_nil {α : Type} (k : String) : mget ([] : MapJS α) k = none := rfl

end MapJS

open MapJS

/-! ## Validation utilities (`src/utils.ts`, class `ValidationUtils`) -/

/-- A JavaScript value passed where a key is expected: either an actual
string or some non-string value. -/
inductive KeyIn where
  | str : String → KeyIn
  | nonString : KeyIn

/-- A JavaScript value passed where a TTL is expected.  Finite numbers are
`num q`; the IEEE-754 specials and non-number values are explicit cases. -/
inductive TTLIn where
  | null : TTLIn
  | nonNumber : TTLIn
  | nan : TTLIn
  | posInf : TTLIn
  | negInf : TTLIn
  | num : ℚ → TTLIn

/-- `Number.MAX_SAFE_INTEGER` -/
def maxSafeInteger : ℚ := 9007199254740991

/-- `ValidationUtils.validateKey`: key must be a non-empty string. -/
def validateKey : KeyIn → Except String String
  | KeyIn.str s => if s.length = 0 then .error "Key must be a non-empty string" else .ok s
  | KeyIn.nonString => .error "Key must be a non-empty string"

/-- `ValidationUtils.validateTTL`: throws unless `ttl` is `null` or a number
with `ttl > 0`, `isFinite(ttl)` and `ttl <= Number.MAX_SAFE_INTEGER`.
Returns the validated value (`none` encodes JS `null`). -/
def validateTTL : TTLIn → Except String (Option ℚ)
  | TTLIn.null => .ok none
  | TTLIn.nonNumber => .error "TTL must be a positive finite number"
  | TTLIn.nan => .error "TTL must be a positive finite number"
  | TTLIn.posInf => .error "TTL must be a positive finite number"
  | TTLIn.negInf => .error "TTL must be a positive finite number"
  | TTLIn.num q =>
      if q ≤ 0 ∨ maxSafeInteger < q then .error "TTL must be a positive finite number"
      else .ok (some q)

/-- A raw batch-operation entry as JavaScript sees it, before validation. -/
inductive RawOp where
  | notObject : RawOp
  | badType : RawOp
  | setOp : KeyIn → JVal → Option TTLIn → RawOp
  | delOp : KeyIn → RawOp

/-- `ValidationUtils.validateBatchOperations`: each entry must be an object
whose `type` is `'set'` or `'delete'`; keys and TTLs inside the entries are
NOT inspected here. -/
def validateBatchOperations : List RawOp → Except String Unit
  | [] => .ok ()
  | RawOp.notObject :: _ => .error "Each operation must be an object"
  | RawOp.badType :: _ => .error "Unknown operation type"
  | RawOp.setOp _ _ _ :: rest => validateBatchOperations rest
  | RawOp.delOp _ :: rest => validateBatchOperations rest

/-! ## TTL manager (`src/ttl-manager.ts`, class `TTLManager`)

The manager's state is its `ttlData` map (key → absolute expiration instant
in epoch-milliseconds).  Every operation that reads the clock takes `now`
(the value of `Date.now()`) explicitly. -/

/-- The `ttlData` map of a `TTLManager`. -/
abbrev TTLData : Type := MapJS ℚ

namespace TTLManager

/-- `TTLManager.setTTL`: stores `Date.now() + ttlSeconds * 1000`. -/
def setTTL (m : TTLData) (now : ℚ) (key : String) (ttlSeconds : ℚ) : TTLData :=
  mset m key (now + ttlSeconds * 1000)

/-- `TTLManager.clearTTL` (state part; the returned Bool is `mhas m key`). -/
def clearTTL (m : TTLData) (key : String) : TTLData :=
  mdel m key

/-- `TTLManager.isExpired`: `expiration ? Date.now() >= expiration : false`.
A stored expiration of `0` is falsy in JS, hence reported as not expired. -/
def isExpired (m : TTLData) (now : ℚ) (key : String) : Bool :=
  match mget m key with
  | none => false
  | some e => if e = 0 then false else decide (e ≤ now)

/-- `TTLManager.getExpiredKeys`: keys whose recorded expiration is `≤ now`. -/
def getExpiredKeys (m : TTLData) (now : ℚ) : List String :=
  (m.filter fun p => decide (p.2 ≤ now)).map Prod.fst

/-- `TTLManager.removeExpiredKeys` (state part; the `expired` event payload
is the argument list itself). -/
def removeExpiredKeys (m : TTLData) (expiredKeys : List String) : TTLData :=
  expiredKeys.foldl mdel m

/-- `TTLManager.getAllTTLData`: serialization snapshot containing only the
entries with `now < expiration`. -/
def getAllTTLData (m : TTLData) (now : ℚ) : TTLData :=
  m.filter fun p => decide (now < p.2)

/-- `TTLManager.loadTTLData`: clears the map and re-inserts every entry of
the incoming object. -/
def loadTTLData (incoming : List (String × ℚ)) : TTLData :=
  incoming.foldl (fun m p => mset m p.1 p.2) []

end TTLManager

/-! ## Store orchestrator (`src/index.ts`, class `BreezeDB`)

State: the in-memory `data` map, the TTL manager's map, and the `isDirty`
flag.  Timers and event emission are not part of the state claims below
need; the save/coalescing machinery is modelled separately. -/

structure Store where
  data : MapJS JVal
  ttl : TTLData
  dirty : Bool

namespace Store

/-- The freshly-constructed empty store. -/
def empty : Store := { data := [], ttl := [], dirty := false }

/-- `BreezeDB.set(key, value, ttl)` -/
def set (s : Store) (now : ℚ) (key : KeyIn) (value : JVal) (ttl : TTLIn) :
    Except String Store := do
  let k ← validateKey key
  let t? ← validateTTL ttl
  let data' := mset s.data k value
  let ttl' := match t? with
    | some t => TTLManager.setTTL s.ttl now k t
    | none => TTLManager.clearTTL s.ttl k
  pure { data := data', ttl := ttl', dirty := true }

/-- `BreezeDB.delete(key)`: returns whether the key existed, and the new
state. -/
def del (s : Store) (key : KeyIn) : Except String (Bool × Store) := do
  let k ← validateKey key
  let existed := mhas s.data k
  let data' := mdel s.data k
  let ttl' := TTLManager.clearTTL s.ttl k
  pure (existed, { data := data', ttl := ttl',
                   dirty := if existed then true else s.dirty })

/-- `BreezeDB.get(key)`: expiry-aware read with lazy delete. -/
def get (s : Store) (now : ℚ) (key : KeyIn) : Except String (Option JVal × Store) := do
  let k ← validateKey key
  if TTLManager.isExpired s.ttl now k then
    let (_, s') ← s.del key
    pure (none, s')
  else
    pure (mget s.data k, s)

/-- `BreezeDB.has(key)`: expiry-aware presence check with lazy delete. -/
def hasKey (s : Store) (now : ℚ) (key : KeyIn) : Except String (Bool × Store) := do
  let k ← validateKey key
  if TTLManager.isExpired s.ttl now k then
    let (_, s') ← s.del key
    pure (false, s')
  else
    pure (mhas s.data k, s)

/-- `BreezeDB.clear()` -/
def clear (s : Store) : Store :=
  { data := [], ttl := [],
    dirty := if s.data.length ≠ 0 then true else s.dirty }

/-- `BreezeDB.cleanupExpired()` (private): sweep every currently-expired
key out of both maps, marking dirty if anything was removed. -/
def cleanupExpired (s : Store) (now : ℚ) : Store :=
  let expiredKeys := TTLManager.getExpiredKeys s.ttl now
  { data := expiredKeys.foldl mdel s.data,
    ttl := TTLManager.removeExpiredKeys s.ttl expiredKeys,
    dirty := if expiredKeys.length ≠ 0 then true else s.dirty }

/-- `BreezeDB.keys()`: sweep, then list the remaining keys. -/
def keysOp (s : Store) (now : ℚ) : List String × Store :=
  let s' := s.cleanupExpired now
  (mkeys s'.data, s')

/-- `BreezeDB.setTTL(key, ttl)`: validate the ttl, then check `has` (which
may lazily delete an expired key); a JS `null` ttl passes validation and is
coerced to `0` by `null * 1000`. -/
def setTTLOp (s : Store) (now : ℚ) (key : KeyIn) (ttl : TTLIn) :
    Except String (Bool × Store) := do
  let t? ← validateTTL ttl
  let (present, s') ← s.hasKey now key
  if present then
    let k ← validateKey key
    pure (true, { s' with ttl := TTLManager.setTTL s'.ttl now k (t?.getD 0),
                          dirty := true })
  else
    pure (false, s')

/-- `BreezeDB.clearTTL(key)` (no key validation in the source). -/
def clearTTLOp (s : Store) (key : String) : Bool × Store :=
  let hadTTL := mhas s.ttl key
  (hadTTL, { s with ttl := TTLManager.clearTTL s.ttl key,
                    dirty := if hadTTL then true else s.dirty })

/-- Result entry pushed by `BreezeDB.batch`. -/
structure BatchResult where
  type : String
  key : KeyIn
  success : Bool

/-- The loop body of `BreezeDB.batch`: apply each operation in order; a
thrown validation error aborts the loop with the state reached so far. -/
def batchGo (s : Store) (now : ℚ) :
    List RawOp → List BatchResult → Except (String × Store) (List BatchResult × Store)
  | [], acc => .ok (acc, s)
  | RawOp.setOp key value ttl? :: rest, acc =>
      match s.set now key value (ttl?.getD TTLIn.null) with
      | .error e => .error (e, s)
      | .ok s' => batchGo s' now rest (acc ++ [⟨"set", key, true⟩])
  | RawOp.delOp key :: rest, acc =>
      match s.del key with
      | .error e => .error (e, s)
      | .ok (deleted, s') => batchGo s' now rest (acc ++ [⟨"delete", key, deleted⟩])
  | _ :: rest, acc => batchGo s now rest acc

/-- `BreezeDB.batch(operations)`: up-front list validation, then the loop.
On error the carried `Store` is the state at the moment of the throw. -/
def batch (s : Store) (now : ℚ) (ops : List RawOp) :
    Except (String × Store) (List BatchResult × Store) :=
  match validateBatchOperations ops with
  | .error e => .error (e, s)
  | .ok _ => batchGo s now ops []

end Store

/-! ## Persistence manager (`src/persistence.ts`, class `PersistenceManager`) -/

/-- The versioned on-disk document (`SerializedData` in `types.ts`).
`JSON.stringify`/`JSON.parse` round-trip the document's structure (the
`pretty` option only changes whitespace), so the textual rendering is
identified with the document itself; `data` holds the entries of
`Object.fromEntries(map)` in insertion order. -/
structure SerializedData where
  data : List (String × JVal)
  ttl : List (String × ℚ)
  version : String
  timestamp : ℚ

/-- Result of a successful load (`LoadResult` in `types.ts`). -/
structure LoadResult where
  data : MapJS JVal
  ttlData : TTLData

namespace PersistenceManager

/-- `PersistenceManager.serialize`: build the versioned document. -/
def serialize (data : MapJS JVal) (ttlData : TTLData) (timestamp : ℚ) : SerializedData :=
  { data := data, ttl := ttlData, version := "1.0.0", timestamp := timestamp }

/-- `PersistenceManager.deserialize`: rebuild the `Map` by `set`-ing every
entry of `parsed.data`, and the TTL object by `Object.assign` (later
duplicate keys overwrite earlier ones in both cases). -/
def deserialize (sd : SerializedData) : LoadResult :=
  { data := sd.data.foldl (fun m p => mset m p.1 p.2) [],
    ttlData := sd.ttl.foldl (fun m p => mset m p.1 p.2) [] }

/-- Bytes of the main/backup/temp files, abstracted to whether the
codec+parse pipeline (`processFromStorage` then `deserialize`) recovers a
document from them: `good sd` decodes to `sd`, `corrupt` throws. -/
inductive Content where
  | good : SerializedData → Content
  | corrupt : Content

/-- Reading and decoding a file's content (`processFromStorage` +
`JSON.parse`): fails exactly on corrupt bytes. -/
def decodeContent : Content → Except String SerializedData
  | Content.good sd => .ok sd
  | Content.corrupt => .error "corrupt data"

/-- The three file slots the manager touches. -/
structure FS where
  main : Option Content
  backup : Option Content
  temp : Option Content

/-- Filesystem side effects performed by a save, in order. -/
inductive FsAction where
  | writeTemp : FsAction
  | copyMainToBackup : FsAction
  | renameTempToMain : FsAction
  deriving DecidableEq, Repr

/-- The write sequence of the async `PersistenceManager.save` (the part
after the single-flight gate): write temp, then copy main to backup if main
exists, then rename temp onto main.  Returns the final filesystem and the
ordered list of effects. -/
def savePipeline (fs : FS) (payload : Content) : FS × List FsAction :=
  let fs1 : FS := { fs with temp := some payload }
  let (fs2, backupActs) :=
    if fs1.main.isSome then
      ({ fs1 with backup := fs1.main }, [FsAction.copyMainToBackup])
    else (fs1, ([] : List FsAction))
  let fs3 : FS := { fs2 with main := fs2.temp, temp := none }
  (fs3, FsAction.writeTemp :: backupActs ++ [FsAction.renameTempToMain])

/-- The write sequence of `PersistenceManager.saveSync`: copy main to
backup if main exists, then write temp, then rename temp onto main. -/
def saveSyncPipeline (fs : FS) (payload : Content) : FS × List FsAction :=
  let (fs1, backupActs) :=
    if fs.main.isSome then
      ({ fs with backup := fs.main }, [FsAction.copyMainToBackup])
    else (fs, ([] : List FsAction))
  let fs2 : FS := { fs1 with temp := some payload }
  let fs3 : FS := { fs2 with main := fs2.temp, temp := none }
  (fs3, backupActs ++ [FsAction.writeTemp, FsAction.renameTempToMain])

/-- `PersistenceManager.saveSync` including its concurrency gate. -/
def saveSyncGate (isWriting : Bool) (fs : FS) (payload : Content) :
    Except String (FS × List FsAction) :=
  if isWriting then .error "Cannot save synchronously while async save is in progress"
  else .ok (saveSyncPipeline fs payload)

/-- `PersistenceManager.load` / `loadSync`, fuel-bounded.  The source
recurses into itself after copying the backup onto the main path; `none`
means the recursion did not terminate within `fuel` nested attempts.
A failed recursive attempt is swallowed by the inner `catch` and the
ORIGINAL error is rethrown, exactly as in the source. -/
def loadFuel : ℕ → FS → Option (Except String LoadResult)
  | 0, _ => none
  | Nat.succ fuel, fs =>
    match fs.main with
    | none => some (.ok { data := [], ttlData := [] })
    | some c =>
      match decodeContent c with
      | .ok sd => some (.ok (deserialize sd))
      | .error e =>
        match fs.backup with
        | some b =>
          match loadFuel fuel { fs with main := some b } with
          | none => none
          | some (.ok r) => some (.ok r)
          | some (.error _) => some (.error e)
        | none => some (.error e)

end PersistenceManager

namespace Store

/-- `BreezeDB.save`: snapshot the TTL map through `getAllTTLData` and
serialize together with the data map (`PersistenceManager.save` stamps the
document with the current time). -/
def saveDoc (s : Store) (now : ℚ) : SerializedData :=
  PersistenceManager.serialize s.data (TTLManager.getAllTTLData s.ttl now) now

/-- `BreezeDB.load` on a fresh instance: install the deserialized data map,
load the TTL map, then run an expiry sweep. -/
def loadFromDoc (sd : SerializedData) (now : ℚ) : Store :=
  let r := PersistenceManager.deserialize sd
  Store.cleanupExpired { data := r.data, ttl := TTLManager.loadTTLData r.ttlData,
                         dirty := false } now

end Store

/-! ## Single-flight save coalescing (`PersistenceManager.save` queue and
`BreezeDB.save`'s dirty-flag handling)

`version` abstractly identifies the in-memory state (bumped by every
mutation); a `SaveCall` records which state a `BreezeDB.save()` call would
serialize.  `requestSave` is `BreezeDB.save` reaching
`PersistenceManager.save`: if a write is in flight the caller is pushed
onto `writeQueue` and no write starts; otherwise the write sequence starts
with the caller's snapshot.  `finishWrite` is the in-flight sequence
completing: the `finally` block clears `isWriting` and calls every queued
resolver; each fulfilled caller's continuation in `BreezeDB.save` then runs
`this.isDirty = false`.  A failed write rejects only the in-flight caller;
queued callers are still resolved (fulfilled) by the `finally` block. -/

structure SaveCall where
  caller : ℕ
  snapshot : ℕ

structure SaveSys where
  version : ℕ
  dirty : Bool
  inFlight : Option SaveCall
  queue : List SaveCall
  writesStarted : ℕ
  writes : List ℕ
  resolvedCallers : List ℕ
  rejectedCallers : List ℕ

namespace SaveSys

/-- A mutation (`set`/`delete`/…): new state identity, store marked dirty. -/
def mutate (st : SaveSys) : SaveSys :=
  { st with version := st.version + 1, dirty := true }

/-- `BreezeDB.save()` by caller `c` reaching `PersistenceManager.save`. -/
def requestSave (st : SaveSys) (c : ℕ) : SaveSys :=
  match st.inFlight with
  | some _ => { st with queue := st.queue ++ [⟨c, st.version⟩] }
  | none => { st with inFlight := some ⟨c, st.version⟩,
                      writesStarted := st.writesStarted + 1 }

/-- The fulfilled callers of a completing write: the in-flight caller when
the write succeeded, plus every queued caller regardless of the outcome
(the `finally` block resolves the queue even after a throw). -/
def fulfilledCallers (st : SaveSys) (f : SaveCall) (success : Bool) : List ℕ :=
  (if success then [f.caller] else []) ++ st.queue.map SaveCall.caller

/-- The in-flight write sequence completes with the given outcome. -/
def finishWrite (st : SaveSys) (success : Bool) : SaveSys :=
  match st.inFlight with
  | none => st
  | some f =>
    { st with
      inFlight := none
      queue := []
      writes := if success then st.writes ++ [f.snapshot] else st.writes
      resolvedCallers := st.resolvedCallers ++ fulfilledCallers st f success
      rejectedCallers := st.rejectedCallers ++ (if success then [] else [f.caller])
      dirty := if (fulfilledCallers st f success).isEmpty then st.dirty else false }

end SaveSys

/-! ## Construction (`BreezeDB` constructor) -/

/-- The options the constructor's fatal-error check reads.  A JS falsy
`encryptionKey` (absent or the empty string) counts as "no key". -/
structure CtorOptions where
  encryption : Bool
  encryptionKey : Option String

/-- Whether `options.encryptionKey` is falsy. -/
def keyFalsy (k : Option String) : Bool :=
  match k with
  | none => true
  | some s => s.length = 0

/-- The `BreezeDB` constructor: throw if encryption is enabled with a falsy
key; then `PersistenceManager`'s constructor ensures the parent directory
exists (`fs.mkdirSync`, whose failure is NOT caught); then `loadSync` runs
inside `try`, any failure being downgraded to a warning and an empty store.
`mkdirOk` and `loadOutcome` are the environment's answers to those two
effects. -/
def constructorModel (opts : CtorOptions) (mkdirOk : Bool)
    (loadOutcome : Except String LoadResult) (now : ℚ) : Except String Store :=
  if opts.encryption ∧ keyFalsy opts.encryptionKey then
    .error "Encryption key is required when encryption is enabled"
  else if ¬ mkdirOk then
    .error "mkdir failed"
  else
    match loadOutcome with
    | .ok r =>
        .ok (Store.cleanupExpired
          { data := r.data, ttl := TTLManager.loadTTLData r.ttlData, dirty := false } now)
    | .error _ => .ok Store.empty

/-! ## Spec-side definitions used to state the claims -/

/-- The write ordering claimed by spec §4.3 for BOTH save variants: temp
write first, then (if a main file exists) the backup copy, then the rename.
Stated from the spec's words, for comparison with the pipelines above. -/
def specSaveOrder (mainExists : Bool) : List PersistenceManager.FsAction :=
  PersistenceManager.FsAction.writeTemp ::
    (if mainExists then [PersistenceManager.FsAction.copyMainToBackup] else []) ++
      [PersistenceManager.FsAction.renameTempToMain]

/-- A key is live at `now`: either permanent (no TTL record) or its recorded
expiry lies strictly in the future. -/
def Store.liveAt (s : Store) (now : ℚ) (k : String) : Prop :=
  ∀ e, mget s.ttl k = some e → now < e

/-- Well-formedness the store maintains: both maps are genuine JS `Map`s
(distinct keys) and every TTL record that has not yet expired refers to a
key present in the data map. -/
def Store.WF (s : Store) (now : ℚ) : Prop :=
  MapJS.NodupKeys s.data ∧ MapJS.NodupKeys s.ttl ∧
    ∀ k e, (k, e) ∈ s.ttl → now < e → mhas s.data k = true

/-- States reachable from a fresh empty store by the public operations
(at nondecreasing wall-clock instants).  Failed `batch` calls are included
because they too leave a state behind. -/
inductive Store.Reachable : Store → ℚ → Prop where
  | init (now : ℚ) : Store.Reachable Store.empty now
  | tick {s : Store} {now now' : ℚ} : Store.Reachable s now → now ≤ now' →
      Store.Reachable s now'
  | setOp {s s' : Store} {now : ℚ} {key : KeyIn} {v : JVal} {ttl : TTLIn} :
      Store.Reachable s now → Store.set s now key v ttl = .ok s' →
      Store.Reachable s' now
  | delOp {s s' : Store} {now : ℚ} {key : KeyIn} {b : Bool} :
      Store.Reachable s now → Store.del s key = .ok (b, s') →
      Store.Reachable s' now
  | getOp {s s' : Store} {now : ℚ} {key : KeyIn} {r : Option JVal} :
      Store.Reachable s now → Store.get s now key = .ok (r, s') →
      Store.Reachable s' now
  | hasOp {s s' : Store} {now : ℚ} {key : KeyIn} {b : Bool} :
      Store.Reachable s now → Store.hasKey s now key = .ok (b, s') →
      Store.Reachable s' now
  | clearOp {s : Store} {now : ℚ} :
      Store.Reachable s now → Store.Reachable (Store.clear s) now
  | cleanupOp {s : Store} {now : ℚ} :
      Store.Reachable s now → Store.Reachable (Store.cleanupExpired s now) now
  | setTTLOp {s s' : Store} {now : ℚ} {key : KeyIn} {ttl : TTLIn} {b : Bool} :
      Store.Reachable s now → Store.setTTLOp s now key ttl = .ok (b, s') →
      Store.Reachable s' now
  | clearTTLOp {s : Store} {now : ℚ} {key : String} :
      Store.Reachable s now → Store.Reachable (Store.clearTTLOp s key).2 now
  | batchOk {s s' : Store} {now : ℚ} {ops : List RawOp} {res : List Store.BatchResult} :
      Store.Reachable s now → Store.batch s now ops = .ok (res, s') →
      Store.Reachable s' now
  | batchErr {s s' : Store} {now : ℚ} {ops : List RawOp} {e : String} :
      Store.Reachable s now → Store.batch s now ops = .error (e, s') →
      Store.Reachable s' now

/-! ## Lemmas about the `Map` model -/

namespace MapJS

theorem mget_mset_self {α : Type} (m : MapJS α) (k : String) (v : α) :
    mget (mset m k v) k = some v := by
  induction m with
  | nil => simp [mset, mget]
  | cons hd tl ih =>
    obtain ⟨k', v'⟩ := hd
    by_cases h : k' = k
    · simp [mset, mget, h]
    · simp [mset, mget, h, ih]

theorem mget_mset_ne {α : Type} (m : MapJS α) (k k' : String) (v : α) (h : k ≠ k') :
    mget (mset m k v) k' = mget m k' := by
  induction m with
  | nil => simp [mset, mget, h]
  | cons hd tl ih =>
    obtain ⟨k₀, v₀⟩ := hd
    by_cases hk : k₀ = k
    · subst hk; simp [mset, mget, h]
    · simp [mset, mget, hk, ih]

theorem mget_eq_none_of_not_mem_keys {α : Type} (m : MapJS α) (k : String)
    (h : k ∉ m.map Prod.fst) : mget m k = none := by
  induction m with
  | nil => rfl
  | cons hd tl ih =>
    obtain ⟨k₀, v₀⟩ := hd
    simp only [List.map_cons, List.mem_cons] at h
    push_neg at h
    have hne : ¬k₀ = k := fun hc => h.1 hc.symm
    simp only [mget, if_neg hne]
    exact ih h.2

theorem mget_mdel_self {α : Type} (m : MapJS α) (hm : NodupKeys m) (k : String) :
    mget (mdel m k) k = none := by
  induction m with
  | nil => simp [mdel]
  | cons hd tl ih =>
    obtain ⟨k₀, v₀⟩ := hd
    rw [NodupKeys, List.map_cons, List.nodup_cons] at hm
    by_cases hk : k₀ = k
    · subst hk
      simp only [mdel, if_pos rfl]
      exact mget_eq_none_of_not_mem_keys tl k₀ hm.1
    · simp [mdel, mget, hk, ih hm.2]

theorem mget_mdel_ne {α : Type} (m : MapJS α) (k k' : String) (h : k ≠ k') :
    mget (mdel m k) k' = mget m k' := by
  induction m with
  | nil => simp [mdel]
  | cons hd tl ih =>
    obtain ⟨k₀, v₀⟩ := hd
    by_cases hk : k₀ = k
    · subst hk
      simp [mdel, mget, h]
    · simp [mdel, mget, hk, ih]

theorem mget_isSome_of_mem_keys {α : Type} (m : MapJS α) (k : String)
    (h : k ∈ m.map Prod.fst) : (mget m k).isSome := by
  induction m with
  | nil => simp at h
  | cons hd tl ih =>
    obtain ⟨k₀, v₀⟩ := hd
    by_cases hk : k₀ = k
    · simp [mget, hk]
    · simp only [List.map_cons, List.mem_cons] at h
      rcases h with h | h
      · exact absurd h.symm hk
      · simp [mget, hk, ih h]

theorem mem_keys_of_mget_some {α : Type} (m : MapJS α) (k : String) {v : α}
    (h : mget m k = some v) : k ∈ m.map Prod.fst := by
  induction m with
  | nil => simp [mget] at h
  | cons hd tl ih =>
    obtain ⟨k₀, v₀⟩ := hd
    by_cases hk : k₀ = k
    · simp [hk]
    · simp only [mget, if_neg hk] at h
      simp [ih h]

theorem mkeys_mset {α : Type} (l : MapJS α) (k : String) (v : α) :
    (mset l k v).map Prod.fst =
      if mhas l k then l.map Prod.fst else l.map Prod.fst ++ [k] := by
  induction l with
  | nil => simp [mset, mhas, mget]
  | cons hd t ih =>
    obtain ⟨k₁, v₁⟩ := hd
    by_cases hk1 : k₁ = k
    · simp [mset, mhas, mget, hk1]
    · simp only [mset, if_neg hk1, List.map_cons, ih, mhas, mget, if_neg hk1]
      by_cases hh : (mget t k).isSome <;> simp [hh]

theorem nodupKeys_mset {α : Type} (m : MapJS α) (hm : NodupKeys m) (k : String) (v : α) :
    NodupKeys (mset m k v) := by
  rw [NodupKeys, mkeys_mset]
  by_cases hh : mhas m k
  · simpa [hh] using hm
  · have hk : k ∉ m.map Prod.fst := fun hmem => by
      simp [mhas, mget_isSome_of_mem_keys m k hmem] at hh
    simp only [hh, Bool.false_eq_true, if_false]
    rw [List.nodup_append]
    refine ⟨hm, List.nodup_singleton k, ?_⟩
    intro x hx hx'
    simp only [List.mem_singleton] at hx'
    exact hk (hx' ▸ hx)

theorem mem_keys_of_mem_keys_mdel {α : Type} (l : MapJS α) (k x : String)
    (hx : x ∈ (mdel l k).map Prod.fst) : x ∈ l.map Prod.fst := by
  induction l with
  | nil => simp [mdel] at hx
  | cons hd t ih =>
    obtain ⟨k₁, v₁⟩ := hd
    by_cases hk1 : k₁ = k
    · simp only [mdel, if_pos hk1] at hx
      simp [hx]
    · simp only [mdel, if_neg hk1, List.map_cons, List.mem_cons] at hx ⊢
      rcases hx with hx | hx
      · exact Or.inl hx
      · exact Or.inr (ih hx)

theorem nodupKeys_mdel {α : Type} (m : MapJS α) (hm : NodupKeys m) (k : String) :
    NodupKeys (mdel m k) := by
  induction m with
  | nil => simp [mdel, NodupKeys]
  | cons hd tl ih =>
    obtain ⟨k₀, v₀⟩ := hd
    rw [NodupKeys, List.map_cons, List.nodup_cons] at hm
    by_cases hk : k₀ = k
    · simp only [mdel, if_pos hk]
      exact hm.2
    · rw [NodupKeys, mdel, if_neg hk, List.map_cons, List.nodup_cons]
      exact ⟨fun hc => hm.1 (mem_keys_of_mem_keys_mdel tl k k₀ hc), ih hm.2⟩

theorem mem_or_eq_of_mem_mset {α : Type} (m : MapJS α) (k : String) (v : α)
    (a : String) (b : α) (h : (a, b) ∈ mset m k v) : (a, b) ∈ m ∨ (a = k ∧ b = v) := by
  induction m with
  | nil =>
    simp only [mset, List.mem_singleton, Prod.mk.injEq] at h
    exact Or.inr h
  | cons hd tl ih =>
    obtain ⟨k₀, v₀⟩ := hd
    by_cases hk : k₀ = k
    · subst hk
      simp only [mset, if_pos rfl] at h
      rcases List.mem_cons.mp h with h | h
      · injection h with h1 h2
        exact Or.inr ⟨h1, h2⟩
      · exact Or.inl (List.mem_cons_of_mem _ h)
    · simp only [mset, if_neg hk, List.mem_cons] at h
      rcases h with h | h
      · exact Or.inl (List.mem_cons.mpr (Or.inl h))
      · rcases ih h with h' | h'
        · exact Or.inl (List.mem_cons_of_mem _ h')
        · exact Or.inr h'

theorem mget_isSome_of_mem {α : Type} (m : MapJS α) (k : String) (e : α)
    (h : (k, e) ∈ m) : (mget m k).isSome :=
  mget_isSome_of_mem_keys m k (List.mem_map.mpr ⟨(k, e), h, rfl⟩)

theorem mget_eq_some_of_mem_nodup {α : Type} (m : MapJS α) (hm : NodupKeys m)
    (k : String) (e : α) (h : (k, e) ∈ m) : mget m k = some e := by
  induction m with
  | nil => simp at h
  | cons hd tl ih =>
    obtain ⟨k₀, v₀⟩ := hd
    rw [NodupKeys, List.map_cons, List.nodup_cons] at hm
    rcases List.mem_cons.mp h with h | h
    · simp only [Prod.mk.injEq] at h
      obtain ⟨h1, h2⟩ := h
      subst h1
      subst h2
      simp [mget]
    · by_cases hk : k₀ = k
      · exact absurd (hk ▸ List.mem_map.mpr ⟨(k, e), h, rfl⟩) hm.1
      · simp only [mget, if_neg hk]
        exact ih hm.2 h

theorem mem_of_mem_mdel {α : Type} (m : MapJS α) (k : String)
    (a : String) (b : α) (h : (a, b) ∈ mdel m k) : (a, b) ∈ m := by
  induction m with
  | nil => simp [mdel] at h
  | cons hd tl ih =>
    obtain ⟨k₀, v₀⟩ := hd
    by_cases hk : k₀ = k
    · simp only [mdel, if_pos hk] at h
      exact List.mem_cons_of_mem _ h
    · simp only [mdel, if_neg hk, List.mem_cons] at h
      rcases h with h | h
      · simp [h]
      · exact List.mem_cons_of_mem _ (ih h)

theorem not_mem_mdel_self {α : Type} (m : MapJS α) (hm : NodupKeys m)
    (k : String) (e : α) : (k, e) ∉ mdel m k := by
  intro h
  have := mget_isSome_of_mem _ _ _ h
  rw [mget_mdel_self m hm k] at this
  simp at this

theorem mget_foldl_mdel_not_mem {α : Type} (l : List String) (m : MapJS α)
    (k : String) (h : k ∉ l) : mget (l.foldl mdel m) k = mget m k := by
  induction l generalizing m with
  | nil => rfl
  | cons kh rest ih =>
    simp only [List.mem_cons] at h
    push_neg at h
    simp only [List.foldl_cons]
    rw [ih (mdel m kh) h.2, mget_mdel_ne m kh k (fun hc => h.1 hc.symm)]

theorem mget_foldl_mdel_none {α : Type} (l : List String) (m : MapJS α)
    (k : String) (h : mget m k = none) : mget (l.foldl mdel m) k = none := by
  induction l generalizing m with
  | nil => exact h
  | cons kh rest ih =>
    simp only [List.foldl_cons]
    refine ih (mdel m kh) ?_
    apply mget_eq_none_of_not_mem_keys
    intro hc
    have hmem := mem_keys_of_mem_keys_mdel m kh k hc
    have := mget_isSome_of_mem_keys m k hmem
    rw [h] at this
    simp at this

theorem mget_foldl_mdel_of_mem {α : Type} (l : List String) (m : MapJS α)
    (hm : NodupKeys m) (k : String) (h : k ∈ l) : mget (l.foldl mdel m) k = none := by
  induction l generalizing m with
  | nil => simp at h
  | cons kh rest ih =>
    simp only [List.foldl_cons]
    by_cases hk : k = kh
    · subst hk
      exact mget_foldl_mdel_none rest (mdel m k) k (mget_mdel_self m hm k)
    · rcases List.mem_cons.mp h with h' | h'
      · exact absurd h' hk
      · exact ih (mdel m kh) (nodupKeys_mdel m hm kh) h'

theorem nodupKeys_foldl_mdel {α : Type} (l : List String) (m : MapJS α)
    (hm : NodupKeys m) : NodupKeys (l.foldl mdel m) := by
  induction l generalizing m with
  | nil => exact hm
  | cons kh rest ih => exact ih (mdel m kh) (nodupKeys_mdel m hm kh)

theorem mem_of_mem_foldl_mdel {α : Type} (l : List String) (m : MapJS α)
    (a : String) (b : α) (h : (a, b) ∈ l.foldl mdel m) : (a, b) ∈ m := by
  induction l generalizing m with
  | nil => exact h
  | cons kh rest ih => exact mem_of_mem_mdel m kh a b (ih (mdel m kh) h)

theorem nodupKeys_filter {α : Type} (m : MapJS α) (p : String × α → Bool)
    (hm : NodupKeys m) : NodupKeys (m.filter p) :=
  ((m.filter_sublist (p := p)).map Prod.fst).nodup hm

theorem mget_filter_none {α : Type} (m : MapJS α) (p : String × α → Bool)
    (k : String) (h : mget m k = none) : mget (m.filter p) k = none := by
  apply mget_eq_none_of_not_mem_keys
  intro hc
  have hmem : k ∈ m.map Prod.fst :=
    ((m.filter_sublist (p := p)).map Prod.fst).mem hc
  have := mget_isSome_of_mem_keys m k hmem
  rw [h] at this
  simp at this

theorem mget_filter_some_pos {α : Type} (m : MapJS α) (p : String × α → Bool)
    (k : String) (e : α) (h : mget m k = some e) (hp : p (k, e) = true) :
    mget (m.filter p) k = some e := by
  induction m with
  | nil => simp [mget] at h
  | cons hd tl ih =>
    obtain ⟨k₀, v₀⟩ := hd
    by_cases hk : k₀ = k
    · subst hk
      have h' : v₀ = e := by simpa [mget] using h
      subst h'
      simp [List.filter_cons, hp, mget]
    · simp only [mget, if_neg hk] at h
      rw [List.filter_cons]
      by_cases hph : p (k₀, v₀)
      · simp only [hph, if_pos trivial, mget, if_neg hk]
        exact ih h
      · simp only [hph]
        simp only [Bool.false_eq_true, if_false]
        exact ih h

theorem not_mem_keys_filter_of_neg {α : Type} (m : MapJS α) (p : String × α → Bool)
    (hm : NodupKeys m) (k : String) (e : α) (h : mget m k = some e)
    (hp : p (k, e) = false) : k ∉ (m.filter p).map Prod.fst := by
  induction m with
  | nil => simp [mget] at h
  | cons hd tl ih =>
    obtain ⟨k₀, v₀⟩ := hd
    rw [NodupKeys, List.map_cons, List.nodup_cons] at hm
    by_cases hk : k₀ = k
    · subst hk
      have h' : v₀ = e := by simpa [mget] using h
      subst h'
      rw [List.filter_cons]
      simp only [hp, Bool.false_eq_true, if_false]
      intro hc
      exact hm.1 (((tl.filter_sublist (p := p)).map Prod.fst).mem hc)
    · simp only [mget, if_neg hk] at h
      rw [List.filter_cons]
      by_cases hph : p (k₀, v₀)
      · simp only [hph, if_pos trivial, List.map_cons, List.mem_cons]
        intro hc
        rcases hc with hc | hc
        · exact hk hc.symm
        · exact ih hm.2 h hc
      · simp only [hph, Bool.false_eq_true, if_false]
        exact ih hm.2 h

theorem mset_eq_append_of_not_mem {α : Type} (m : MapJS α) (k : String) (v : α)
    (h : k ∉ m.map Prod.fst) : mset m k v = m ++ [(k, v)] := by
  induction m with
  | nil => rfl
  | cons hd tl ih =>
    obtain ⟨k₀, v₀⟩ := hd
    simp only [List.map_cons, List.mem_cons] at h
    push_neg at h
    have hne : ¬k₀ = k := fun hc => h.1 hc.symm
    simp only [mset, if_neg hne, List.cons_append, List.cons.injEq, true_and]
    exact ih h.2

theorem foldl_mset_eq_append {α : Type} (l : List (String × α)) (m₀ : MapJS α)
    (h : NodupKeys (m₀ ++ l)) :
    l.foldl (fun m p => mset m p.1 p.2) m₀ = m₀ ++ l := by
  induction l generalizing m₀ with
  | nil => simp
  | cons hd rest ih =>
    obtain ⟨k, v⟩ := hd
    have hknotin : k ∉ m₀.map Prod.fst := by
      rw [NodupKeys, List.map_append, List.nodup_append] at h
      intro hc
      exact h.2.2 hc (by simp)
    simp only [List.foldl_cons]
    rw [mset_eq_append_of_not_mem m₀ k v hknotin]
    have hassoc : (m₀ ++ [(k, v)]) ++ rest = m₀ ++ (k, v) :: rest := by
      simp
    rw [ih (m₀ ++ [(k, v)]) (by rw [hassoc]; exact h), hassoc]

theorem foldl_mset_eq_self {α : Type} (l : List (String × α)) (h : NodupKeys l) :
    l.foldl (fun m p => mset m p.1 p.2) [] = l :=
  foldl_mset_eq_append l [] (by simpa using h)

theorem mhas_mset_self {α : Type} (m : MapJS α) (k : String) (v : α) :
    mhas (mset m k v) k = true := by
  simp [mhas, mget_mset_self]

theorem mhas_mset_of_mhas {α : Type} (m : MapJS α) (k k' : String) (v : α)
    (h : mhas m k' = true) : mhas (mset m k v) k' = true := by
  by_cases hk : k = k'
  · subst hk
    exact mhas_mset_self m k v
  · rwa [mhas, mget_mset_ne m k k' v hk]

theorem mem_mset_self {α : Type} (m : MapJS α) (k : String) (v : α) :
    (k, v) ∈ mset m k v := by
  induction m with
  | nil => simp [mset]
  | cons hd tl ih =>
    obtain ⟨k₀, v₀⟩ := hd
    by_cases hk : k₀ = k
    · subst hk
      simp [mset]
    · simp only [mset, if_neg hk, List.mem_cons]
      exact Or.inr ih

end MapJS

/-! ## Helper lemmas about the validators -/

theorem validateTTL_ok_iff (t : TTLIn) :
    (∃ r, validateTTL t = .ok r) ↔
      (t = TTLIn.null ∨ ∃ q : ℚ, t = TTLIn.num q ∧ 0 < q ∧ q ≤ maxSafeInteger) := by
  cases t with
  | null => simp [validateTTL]
  | nonNumber => simp [validateTTL]
  | nan => simp [validateTTL]
  | posInf => simp [validateTTL]
  | negInf => simp [validateTTL]
  | num q =>
    simp only [validateTTL]
    by_cases hq : q ≤ 0 ∨ maxSafeInteger < q
    · rw [if_pos hq]
      constructor
      · rintro ⟨r, hr⟩
        simp at hr
      · rintro (h | ⟨q', hq', h1, h2⟩)
        · exact absurd h (by simp)
        · injection hq' with hqq
          subst hqq
          rcases hq with hq | hq
          · exact absurd h1 (not_lt.mpr hq)
          · exact absurd h2 (not_le.mpr hq)
    · rw [if_neg hq]
      push_neg at hq
      constructor
      · intro
        exact Or.inr ⟨q, rfl, hq.1, hq.2⟩
      · intro
        exact ⟨some q, rfl⟩

/-! ## Claim theorems -/

/-- C7, counterexample: `2^53` is a finite number strictly greater than
zero, yet `validateTTL` rejects it and `set` raises the validation error
for it — the code additionally bounds TTLs by `Number.MAX_SAFE_INTEGER`,
so the claim's "fails exactly for every other ttl value" is false. -/
theorem C7_counterexample :
    (0 : ℚ) < 9007199254740992 ∧
    validateTTL (TTLIn.num 9007199254740992) =
      .error "TTL must be a positive finite number" ∧
    Store.set Store.empty 0 (KeyIn.str "a") JVal.jnull (TTLIn.num 9007199254740992) =
      .error "TTL must be a positive finite number" := by
  refine ⟨by norm_num, ?_, ?_⟩
  · rfl
  · rfl

/-- C7, amended: for a key that passes key validation, `set(key, value,
ttl)` succeeds exactly when `ttl` is `null` or a finite number `q` with
`0 < q ≤ Number.MAX_SAFE_INTEGER`; every other ttl value (non-number, NaN,
±Infinity, non-positive, or above `MAX_SAFE_INTEGER`) fails with the
validation error. -/
theorem C7_set_ttl_acceptance (s : Store) (now : ℚ) (key : KeyIn) (k : String)
    (v : JVal) (t : TTLIn) (hkey : validateKey key = .ok k) :
    (∃ s', Store.set s now key v t = .ok s') ↔
      (t = TTLIn.null ∨ ∃ q : ℚ, t = TTLIn.num q ∧ 0 < q ∧ q ≤ maxSafeInteger) := by
  rw [← validateTTL_ok_iff t]
  constructor
  · rintro ⟨s', hs'⟩
    cases hvt : validateTTL t with
    | ok r => exact ⟨r, rfl⟩
    | error e =>
      unfold Store.set at hs'
      rw [hkey, hvt] at hs'
      simp [Bind.bind, Except.bind] at hs'
  · rintro ⟨r, hr⟩
    cases r with
    | none =>
      refine ⟨{ data := mset s.data k v, ttl := TTLManager.clearTTL s.ttl k,
                dirty := true }, ?_⟩
      unfold Store.set
      rw [hkey, hr]
      rfl
    | some t' =>
      refine ⟨{ data := mset s.data k v, ttl := TTLManager.setTTL s.ttl now k t',
                dirty := true }, ?_⟩
      unfold Store.set
      rw [hkey, hr]
      rfl

/-- C7 witness: the amended statement applied at a concrete valid key and
the concrete ttl `1`. -/
theorem C7_set_ttl_acceptance_witness :
    (∃ s', Store.set Store.empty 0 (KeyIn.str "a") JVal.jnull (TTLIn.num 1) = .ok s') ↔
      (TTLIn.num 1 = TTLIn.null ∨
        ∃ q : ℚ, TTLIn.num 1 = TTLIn.num q ∧ 0 < q ∧ q ≤ maxSafeInteger) :=
  C7_set_ttl_acceptance Store.empty 0 (KeyIn.str "a") "a" JVal.jnull (TTLIn.num 1) rfl

/-- C2, counterexample: with a main file present, `saveSync` performs the
backup copy BEFORE the temp write, so its action sequence differs from the
claimed temp-first ordering. -/
theorem C2_counterexample :
    (PersistenceManager.saveSyncPipeline
        ⟨some PersistenceManager.Content.corrupt, none, none⟩
        PersistenceManager.Content.corrupt).2 ≠ specSaveOrder true := by
  decide

/-- C2, amended: the asynchronous `save` honors the claimed sequencing
(temp write, then backup copy if a main file exists, then rename), while
`saveSync` performs the backup copy first (then temp write, then rename);
both variants nevertheless end with the new payload as the main file and,
when a main file existed, the previous main file as the backup. -/
theorem C2_save_sequencing (fs : PersistenceManager.FS)
    (payload : PersistenceManager.Content) :
    (PersistenceManager.savePipeline fs payload).2 = specSaveOrder fs.main.isSome ∧
    (PersistenceManager.saveSyncPipeline fs payload).2 =
      (if fs.main.isSome then [PersistenceManager.FsAction.copyMainToBackup] else []) ++
        [PersistenceManager.FsAction.writeTemp,
         PersistenceManager.FsAction.renameTempToMain] ∧
    (PersistenceManager.savePipeline fs payload).1.main = some payload ∧
    (PersistenceManager.saveSyncPipeline fs payload).1.main = some payload ∧
    (PersistenceManager.savePipeline fs payload).1.backup =
      (if fs.main.isSome then fs.main else fs.backup) ∧
    (PersistenceManager.saveSyncPipeline fs payload).1.backup =
      (if fs.main.isSome then fs.main else fs.backup) := by
  unfold PersistenceManager.savePipeline PersistenceManager.saveSyncPipeline specSaveOrder
  by_cases h : fs.main.isSome <;> simp [h]

/-- C9, counterexample: with encryption disabled, a failure to create the
database file's parent directory (`fs.mkdirSync` in the
`PersistenceManager` constructor, not wrapped in any try/catch) also fails
construction, so the missing-encryption-key error is not the only
construction failure. -/
theorem C9_counterexample :
    constructorModel ⟨false, none⟩ false (.ok ⟨[], []⟩) 0 = .error "mkdir failed" ∧
    "mkdir failed" ≠ "Encryption key is required when encryption is enabled" := by
  constructor
  · rfl
  · decide

/-- C9, amended: a failure to read or decode an existing database file
during construction is not propagated — the constructor logs a warning and
starts with an empty data map and TTL index; the only errors that fail
construction are the missing-encryption-key configuration error and a
failure to create the database file's parent directory. -/
theorem C9_construction (opts : CtorOptions) (mkdirOk : Bool)
    (lo : Except String LoadResult) (now : ℚ) :
    ((∃ e, lo = .error e) → mkdirOk = true →
      ¬(opts.encryption = true ∧ keyFalsy opts.encryptionKey = true) →
      constructorModel opts mkdirOk lo now = .ok Store.empty) ∧
    (∀ err, constructorModel opts mkdirOk lo now = .error err →
      (opts.encryption = true ∧ keyFalsy opts.encryptionKey = true) ∨
        mkdirOk = false) := by
  constructor
  · rintro ⟨e, he⟩ hmk henc
    subst he
    unfold constructorModel
    rw [if_neg henc, hmk]
    simp
  · intro err herr
    unfold constructorModel at herr
    by_cases henc : opts.encryption = true ∧ keyFalsy opts.encryptionKey = true
    · exact Or.inl henc
    · rw [if_neg henc] at herr
      by_cases hmk : mkdirOk
      · rw [if_neg (by simp [hmk])] at herr
        cases lo <;> simp at herr
      · exact Or.inr (by simpa using hmk)

/-- C9 witness: the amended statement applied with encryption disabled, a
working directory, and a corrupt existing file: construction succeeds with
the empty store. -/
theorem C9_construction_witness :
    constructorModel ⟨false, none⟩ true (.error "corrupt") 0 = .ok Store.empty :=
  (C9_construction ⟨false, none⟩ true (.error "corrupt") 0).1 ⟨"corrupt", rfl⟩ rfl
    (by simp)

/-- C3: with the main file and the backup file both undecodable, every
fuel bound is exhausted — the source's load retries the backup restore
unboundedly (each attempt copies the backup onto the main path and recurses)
instead of retrying exactly once and surfacing a `PersistenceError`; with a
decodable backup, one retry succeeds and returns the backup's content, as
the claim describes. -/
theorem C3_load_retry :
    (∀ fuel : ℕ, PersistenceManager.loadFuel fuel
        ⟨some PersistenceManager.Content.corrupt,
         some PersistenceManager.Content.corrupt, none⟩ = none) ∧
    (∀ sd : SerializedData,
      PersistenceManager.loadFuel 2
        ⟨some PersistenceManager.Content.corrupt,
         some (PersistenceManager.Content.good sd), none⟩ =
        some (.ok (PersistenceManager.deserialize sd))) := by
  constructor
  · intro fuel
    induction fuel with
    | zero => rfl
    | succ n ih =>
      simp only [PersistenceManager.loadFuel, PersistenceManager.decodeContent]
      rw [ih]
  · intro sd
    rfl

/-- Issuing save requests while a write is in flight only appends the
callers to the write queue (with the current state as snapshot); nothing
else in the system changes. -/
theorem foldl_requestSave_of_inFlight (cs : List ℕ) (st : SaveSys) (f : SaveCall)
    (h : st.inFlight = some f) :
    cs.foldl SaveSys.requestSave st =
      { st with queue := st.queue ++ cs.map fun c => (⟨c, st.version⟩ : SaveCall) } := by
  induction cs generalizing st with
  | nil => simp
  | cons c rest ih =>
    simp only [List.foldl_cons, List.map_cons]
    rw [SaveSys.requestSave.eq_def, h]
    dsimp only
    rw [ih _ rfl]
    simp

/-- C6: if N asynchronous `save()` calls arrive while one asynchronous save
is in flight, none of them starts a write sequence; when the in-flight
write completes, every one of them is resolved (fulfilled), and the only
write that ever executed is the in-flight one (its snapshot is the only
one appended to the write log, and the started-write counter is
unchanged). -/
theorem C6_save_coalescing (st0 : SaveSys) (f : SaveCall) (h0 : st0.inFlight = some f)
    (cs : List ℕ) (success : Bool) :
    (cs.foldl SaveSys.requestSave st0).writesStarted = st0.writesStarted ∧
    (cs.foldl SaveSys.requestSave st0).writes = st0.writes ∧
    (∀ c ∈ cs,
      c ∈ (SaveSys.finishWrite (cs.foldl SaveSys.requestSave st0) success).resolvedCallers) ∧
    (SaveSys.finishWrite (cs.foldl SaveSys.requestSave st0) success).writesStarted =
      st0.writesStarted ∧
    (SaveSys.finishWrite (cs.foldl SaveSys.requestSave st0) success).writes =
      (if success then st0.writes ++ [f.snapshot] else st0.writes) := by
  rw [foldl_requestSave_of_inFlight cs st0 f h0]
  rw [SaveSys.finishWrite.eq_def]
  dsimp only
  rw [h0]
  dsimp only
  refine ⟨rfl, rfl, ?_, rfl, rfl⟩
  intro c hc
  have hmem : c ∈ (cs.map fun c => (⟨c, st0.version⟩ : SaveCall)).map SaveCall.caller := by
    rw [List.map_map]
    simpa [Function.comp] using hc
  simp only [SaveSys.fulfilledCallers, List.map_append, List.mem_append]
  exact Or.inr (Or.inr (Or.inr hmem))

/-- C6 witness: a concrete system with one in-flight write and three
incoming save requests. -/
theorem C6_save_coalescing_witness :
    (([1, 2, 3] : List ℕ).foldl SaveSys.requestSave
        ⟨0, true, some ⟨0, 0⟩, [], 1, [], [], []⟩).writesStarted = 1 ∧
    (([1, 2, 3] : List ℕ).foldl SaveSys.requestSave
        ⟨0, true, some ⟨0, 0⟩, [], 1, [], [], []⟩).writes = [] ∧
    (∀ c ∈ ([1, 2, 3] : List ℕ),
      c ∈ (SaveSys.finishWrite
        (([1, 2, 3] : List ℕ).foldl SaveSys.requestSave
          ⟨0, true, some ⟨0, 0⟩, [], 1, [], [], []⟩) true).resolvedCallers) ∧
    (SaveSys.finishWrite
      (([1, 2, 3] : List ℕ).foldl SaveSys.requestSave
        ⟨0, true, some ⟨0, 0⟩, [], 1, [], [], []⟩) true).writesStarted = 1 ∧
    (SaveSys.finishWrite
      (([1, 2, 3] : List ℕ).foldl SaveSys.requestSave
        ⟨0, true, some ⟨0, 0⟩, [], 1, [], [], []⟩) true).writes =
      (if true then ([] : List ℕ) ++ [0] else []) := by
  have h := C6_save_coalescing ⟨0, true, some ⟨0, 0⟩, [], 1, [], [], []⟩ ⟨0, 0⟩ rfl
    [1, 2, 3] true
  exact h

/-- C10: whenever a `finishWrite` step newly resolves some `save()` caller,
the dirty flag ends up `false` (each fulfilled caller's continuation runs
`this.isDirty = false`); in particular a caller that requested a save after
a further mutation, while another save was in flight, is resolved with the
dirty flag cleared even though the state it wanted saved is never written. -/
theorem C10_save_resolution :
    (∀ (st : SaveSys) (success : Bool) (c : ℕ),
        c ∈ (SaveSys.finishWrite st success).resolvedCallers →
        c ∉ st.resolvedCallers →
        (SaveSys.finishWrite st success).dirty = false) ∧
    (∀ (st0 : SaveSys) (f : SaveCall), st0.inFlight = some f →
      ∀ (c : ℕ) (success : Bool),
        c ∈ (SaveSys.finishWrite (SaveSys.requestSave (SaveSys.mutate st0) c)
              success).resolvedCallers ∧
        (SaveSys.finishWrite (SaveSys.requestSave (SaveSys.mutate st0) c)
              success).dirty = false ∧
        (st0.version + 1 ∉ st0.writes → f.snapshot ≠ st0.version + 1 →
          st0.version + 1 ∉
            (SaveSys.finishWrite (SaveSys.requestSave (SaveSys.mutate st0) c)
              success).writes)) := by
  constructor
  · intro st success c hc hnot
    cases hin : st.inFlight with
    | none =>
      rw [SaveSys.finishWrite.eq_def, hin] at hc
      exact absurd hc hnot
    | some f =>
      rw [SaveSys.finishWrite.eq_def, hin] at hc
      rw [SaveSys.finishWrite.eq_def, hin]
      dsimp only at hc ⊢
      simp only [List.mem_append] at hc
      rcases hc with hc | hc
      · exact absurd hc hnot
      · have hne : ¬(SaveSys.fulfilledCallers st f success).isEmpty = true := by
          intro he
          rw [List.isEmpty_iff] at he
          rw [he] at hc
          simp at hc
        simp [hne]
  · intro st0 f h0 c success
    have hreq : SaveSys.requestSave (SaveSys.mutate st0) c =
        { st0 with version := st0.version + 1, dirty := true,
                   queue := st0.queue ++ [⟨c, st0.version + 1⟩] } := by
      rw [SaveSys.requestSave.eq_def]
      dsimp only [SaveSys.mutate]
      rw [h0]
    rw [hreq, SaveSys.finishWrite.eq_def]
    dsimp only
    rw [h0]
    dsimp only
    have hcmem : c ∈ SaveSys.fulfilledCallers
        { st0 with version := st0.version + 1, dirty := true,
                   queue := st0.queue ++ [⟨c, st0.version + 1⟩] } f success := by
      simp [SaveSys.fulfilledCallers]
    refine ⟨List.mem_append.mpr (Or.inr hcmem), ?_, ?_⟩
    · rw [if_neg (by simp [SaveSys.fulfilledCallers, List.isEmpty_iff])]
    · intro hw hs
      cases success with
      | false => simpa using hw
      | true =>
        simp only [if_true, List.mem_append, List.mem_singleton]
        push_neg
        exact ⟨hw, fun hc => hs hc.symm⟩

/-- C10 witness: the queued-caller part applied to a concrete in-flight
system. -/
theorem C10_save_resolution_witness :
    7 ∈ (SaveSys.finishWrite
          (SaveSys.requestSave (SaveSys.mutate ⟨0, true, some ⟨0, 0⟩, [], 1, [], [], []⟩) 7)
          true).resolvedCallers ∧
    (SaveSys.finishWrite
          (SaveSys.requestSave (SaveSys.mutate ⟨0, true, some ⟨0, 0⟩, [], 1, [], [], []⟩) 7)
          true).dirty = false :=
  ⟨(C10_save_resolution.2 ⟨0, true, some ⟨0, 0⟩, [], 1, [], [], []⟩ ⟨0, 0⟩ rfl 7 true).1,
   (C10_save_resolution.2 ⟨0, true, some ⟨0, 0⟩, [], 1, [], [], []⟩ ⟨0, 0⟩ rfl 7 true).2.1⟩

/-- C4, counterexample: `validateBatchOperations` does not inspect keys or
ttls, so a batch whose second operation has an empty key throws the key
validation error only after the first operation has already mutated the
store: `batch` throws, yet the state differs from the state before the
call. -/
theorem C4_counterexample :
    Store.batch Store.empty 0
        [RawOp.setOp (KeyIn.str "a") (JVal.jbool true) none,
         RawOp.setOp (KeyIn.str "") (JVal.jbool true) none] =
      .error ("Key must be a non-empty string",
        { data := [("a", JVal.jbool true)], ttl := [], dirty := true }) ∧
    ({ data := [("a", JVal.jbool true)], ttl := [], dirty := true } : Store) ≠
      Store.empty := by
  constructor
  · rfl
  · intro h
    simp [Store.empty, Store.mk.injEq] at h

/-- C4, amended: `batch(operations)` validates up front only the structure
of the list (each entry an object whose type is `set` or `delete`); when
that up-front validation fails, the whole call fails with the
ValidationError before any mutation — the state carried out equals the
state before the call.  (A malformed key or ttl INSIDE an operation is
detected only when that operation is applied, as the counterexample
shows.) -/
theorem C4_batch_validation (s : Store) (now : ℚ) (ops : List RawOp) (e : String)
    (h : validateBatchOperations ops = .error e) :
    Store.batch s now ops = .error (e, s) := by
  unfold Store.batch
  rw [h]

/-- C4 witness: a batch containing a non-object entry fails with the
structural validation error and an unchanged store. -/
theorem C4_batch_validation_witness :
    Store.batch Store.empty 0 [RawOp.notObject] =
      .error ("Each operation must be an object", Store.empty) :=
  C4_batch_validation Store.empty 0 [RawOp.notObject]
    "Each operation must be an object" rfl

/-- Inversion of a successful `Store.set`. -/
theorem set_ok_inversion {s s' : Store} {now : ℚ} {key : KeyIn} {v : JVal}
    {ttl : TTLIn} (h : Store.set s now key v ttl = .ok s') :
    ∃ k t?, validateKey key = .ok k ∧ validateTTL ttl = .ok t? ∧
      s' = { data := mset s.data k v,
             ttl := match t? with
                    | some t => TTLManager.setTTL s.ttl now k t
                    | none => TTLManager.clearTTL s.ttl k,
             dirty := true } := by
  cases hk : validateKey key with
  | error e =>
    unfold Store.set at h
    rw [hk] at h
    simp [Bind.bind, Except.bind] at h
  | ok k =>
    cases ht : validateTTL ttl with
    | error e =>
      unfold Store.set at h
      rw [hk, ht] at h
      simp [Bind.bind, Except.bind] at h
    | ok t? =>
      unfold Store.set at h
      rw [hk, ht] at h
      simp only [Bind.bind, Except.bind, Pure.pure, Except.pure, Except.ok.injEq] at h
      exact ⟨k, t?, rfl, rfl, h.symm⟩

/-- Inversion of a successful `Store.del`. -/
theorem del_ok_inversion {s s' : Store} {key : KeyIn} {b : Bool}
    (h : Store.del s key = .ok (b, s')) :
    ∃ k, validateKey key = .ok k ∧ b = mhas s.data k ∧
      s' = { data := mdel s.data k, ttl := TTLManager.clearTTL s.ttl k,
             dirty := if mhas s.data k then true else s.dirty } := by
  cases hk : validateKey key with
  | error e =>
    unfold Store.del at h
    rw [hk] at h
    simp [Bind.bind, Except.bind] at h
  | ok k =>
    unfold Store.del at h
    rw [hk] at h
    simp only [Bind.bind, Except.bind, Pure.pure, Except.pure, Except.ok.injEq,
      Prod.mk.injEq] at h
    exact ⟨k, rfl, h.1.symm, h.2.symm⟩

/-- C5: after `set(k, v, ttl=t)` at time `now0`, the recorded expiry is
`now0 + t*1000`; at any instant strictly before it, `get` returns `v`
(leaving the store unchanged), `has` returns `true`, and the key appears
in `keys()`; at any instant at or after it, `get` lazily deletes the key
and reports it absent, `has` reports `false`, and the key does not appear
in `keys()`. -/
theorem C5_expiry (s s₁ : Store) (now0 : ℚ) (k : String) (v : JVal) (t : ℚ)
    (hk : k.length ≠ 0) (ht : 0 < t) (htm : t ≤ maxSafeInteger) (hnow : 0 ≤ now0)
    (hnd : MapJS.NodupKeys s.data) (hnt : MapJS.NodupKeys s.ttl)
    (hset : Store.set s now0 (KeyIn.str k) v (TTLIn.num t) = .ok s₁) :
    (∀ now1 : ℚ, now1 < now0 + t * 1000 →
      Store.get s₁ now1 (KeyIn.str k) = .ok (some v, s₁) ∧
      Store.hasKey s₁ now1 (KeyIn.str k) = .ok (true, s₁) ∧
      k ∈ (Store.keysOp s₁ now1).1) ∧
    (∀ now2 : ℚ, now0 + t * 1000 ≤ now2 →
      Store.get s₁ now2 (KeyIn.str k) =
        .ok (none, ⟨mdel s₁.data k, TTLManager.clearTTL s₁.ttl k, true⟩) ∧
      Store.hasKey s₁ now2 (KeyIn.str k) =
        .ok (false, ⟨mdel s₁.data k, TTLManager.clearTTL s₁.ttl k, true⟩) ∧
      k ∉ (Store.keysOp s₁ now2).1) := by
  have hkey : validateKey (KeyIn.str k) = .ok k := by
    simp [validateKey, hk]
  have httl : validateTTL (TTLIn.num t) = .ok (some t) := by
    unfold validateTTL
    dsimp only
    rw [if_neg]
    rintro (hc | hc)
    · exact absurd ht (not_lt.mpr hc)
    · exact absurd htm (not_le.mpr hc)
  have hs₁ : s₁ = ⟨mset s.data k v, mset s.ttl k (now0 + t * 1000), true⟩ := by
    unfold Store.set at hset
    rw [hkey, httl] at hset
    simp only [Bind.bind, Except.bind, Pure.pure, Except.pure, Except.ok.injEq] at hset
    exact hset.symm
  subst hs₁
  have h1000 : (0 : ℚ) < t * 1000 := by positivity
  have hexp0 : now0 + t * 1000 ≠ 0 := by
    intro hc
    linarith
  have hexpget : mget (mset s.ttl k (now0 + t * 1000)) k = some (now0 + t * 1000) :=
    mget_mset_self s.ttl k (now0 + t * 1000)
  constructor
  · intro now1 h1
    have hnotexp :
        TTLManager.isExpired (mset s.ttl k (now0 + t * 1000)) now1 k = false := by
      unfold TTLManager.isExpired
      rw [hexpget]
      dsimp only
      rw [if_neg hexp0]
      exact decide_eq_false (not_le.mpr h1)
    refine ⟨?_, ?_, ?_⟩
    · unfold Store.get
      rw [hkey]
      simp [Bind.bind, Except.bind, hnotexp, mget_mset_self, Pure.pure, Except.pure]
    · unfold Store.hasKey
      rw [hkey]
      simp [Bind.bind, Except.bind, hnotexp, mhas_mset_self, Pure.pure, Except.pure]
    · have hknot : k ∉ ((mset s.ttl k (now0 + t * 1000)).filter
          (fun p => decide (p.2 ≤ now1))).map Prod.fst :=
        not_mem_keys_filter_of_neg _ _ (nodupKeys_mset s.ttl hnt k _) k _
          hexpget (decide_eq_false (not_le.mpr h1))
      unfold Store.keysOp Store.cleanupExpired TTLManager.getExpiredKeys
        TTLManager.removeExpiredKeys mkeys
      dsimp only
      have hgot : mget (((mset s.ttl k (now0 + t * 1000)).filter
            (fun p => decide (p.2 ≤ now1))).map Prod.fst
          |>.foldl mdel (mset s.data k v)) k = some v := by
        rw [mget_foldl_mdel_not_mem _ _ k hknot]
        exact mget_mset_self s.data k v
      exact mem_keys_of_mget_some _ k hgot
  · intro now2 h2
    have hisexp :
        TTLManager.isExpired (mset s.ttl k (now0 + t * 1000)) now2 k = true := by
      unfold TTLManager.isExpired
      rw [hexpget]
      dsimp only
      rw [if_neg hexp0]
      exact decide_eq_true h2
    have hdel : Store.del ⟨mset s.data k v, mset s.ttl k (now0 + t * 1000), true⟩
        (KeyIn.str k) = .ok (true, ⟨mdel (mset s.data k v) k,
          TTLManager.clearTTL (mset s.ttl k (now0 + t * 1000)) k, true⟩) := by
      unfold Store.del
      rw [hkey]
      simp [Bind.bind, Except.bind, Pure.pure, Except.pure, mhas_mset_self]
    refine ⟨?_, ?_, ?_⟩
    · unfold Store.get
      rw [hkey]
      simp [Bind.bind, Except.bind, hisexp, hdel, Pure.pure, Except.pure]
    · unfold Store.hasKey
      rw [hkey]
      simp [Bind.bind, Except.bind, hisexp, hdel, Pure.pure, Except.pure]
    · unfold Store.keysOp Store.cleanupExpired TTLManager.getExpiredKeys
        TTLManager.removeExpiredKeys mkeys
      dsimp only
      intro hc
      have hkin : k ∈ (List.filter (fun p => decide (p.2 ≤ now2))
          (mset s.ttl k (now0 + t * 1000))).map Prod.fst := by
        refine List.mem_map.mpr ⟨(k, now0 + t * 1000), ?_, rfl⟩
        exact List.mem_filter.mpr ⟨mem_mset_self _ _ _, decide_eq_true h2⟩
      have hnone : mget (((mset s.ttl k (now0 + t * 1000)).filter
            (fun p => decide (p.2 ≤ now2))).map Prod.fst
          |>.foldl mdel (mset s.data k v)) k = none :=
        mget_foldl_mdel_of_mem _ _ (nodupKeys_mset s.data hnd k v) k hkin
      have hsome := mget_isSome_of_mem_keys _ k hc
      rw [hnone] at hsome
      simp at hsome

/-- C5 witness: the expiry statement applied to a concrete store: key
`"a"`, value `42`, one-second TTL set at time `0`. -/
theorem C5_expiry_witness :
    (∀ now1 : ℚ, now1 < 0 + 1 * 1000 →
      Store.get ⟨[("a", JVal.jnum 42)], [("a", (0 : ℚ) + 1 * 1000)], true⟩ now1
          (KeyIn.str "a") =
        .ok (some (JVal.jnum 42),
          ⟨[("a", JVal.jnum 42)], [("a", (0 : ℚ) + 1 * 1000)], true⟩) ∧
      Store.hasKey ⟨[("a", JVal.jnum 42)], [("a", (0 : ℚ) + 1 * 1000)], true⟩ now1
          (KeyIn.str "a") =
        .ok (true, ⟨[("a", JVal.jnum 42)], [("a", (0 : ℚ) + 1 * 1000)], true⟩) ∧
      "a" ∈ (Store.keysOp
        ⟨[("a", JVal.jnum 42)], [("a", (0 : ℚ) + 1 * 1000)], true⟩ now1).1) ∧
    (∀ now2 : ℚ, 0 + 1 * 1000 ≤ now2 →
      Store.get ⟨[("a", JVal.jnum 42)], [("a", (0 : ℚ) + 1 * 1000)], true⟩ now2
          (KeyIn.str "a") =
        .ok (none, ⟨mdel [("a", JVal.jnum 42)] "a",
          TTLManager.clearTTL [("a", (0 : ℚ) + 1 * 1000)] "a", true⟩) ∧
      Store.hasKey ⟨[("a", JVal.jnum 42)], [("a", (0 : ℚ) + 1 * 1000)], true⟩ now2
          (KeyIn.str "a") =
        .ok (false, ⟨mdel [("a", JVal.jnum 42)] "a",
          TTLManager.clearTTL [("a", (0 : ℚ) + 1 * 1000)] "a", true⟩) ∧
      "a" ∉ (Store.keysOp
        ⟨[("a", JVal.jnum 42)], [("a", (0 : ℚ) + 1 * 1000)], true⟩ now2).1) :=
  C5_expiry Store.empty
    ⟨[("a", JVal.jnum 42)], [("a", (0 : ℚ) + 1 * 1000)], true⟩ 0 "a"
    (JVal.jnum 42) 1 (by decide) (by norm_num) (by norm_num [maxSafeInteger])
    (by norm_num) (by simp [MapJS.NodupKeys, Store.empty])
    (by simp [MapJS.NodupKeys, Store.empty]) rfl

/-- C1: `save()` followed by `load()` on a fresh instance reproduces every
key-value pair that is live (non-expired) at load time, with its exact
recorded expiry instant (hence its remaining duration); and at the
document level, `deserialize ∘ serialize` is the identity on every data
map and TTL map. -/
theorem C1_round_trip (s : Store) (now_s now_l : ℚ)
    (hnd : MapJS.NodupKeys s.data) (hnt : MapJS.NodupKeys s.ttl)
    (hsl : now_s ≤ now_l) :
    (∀ k v, mget s.data k = some v → Store.liveAt s now_l k →
      mget (Store.loadFromDoc (Store.saveDoc s now_s) now_l).data k = some v ∧
      mget (Store.loadFromDoc (Store.saveDoc s now_s) now_l).ttl k = mget s.ttl k) ∧
    (∀ (d : MapJS JVal) (tt : TTLData) (ts : ℚ),
      MapJS.NodupKeys d → MapJS.NodupKeys tt →
      PersistenceManager.deserialize (PersistenceManager.serialize d tt ts) =
        ⟨d, tt⟩) := by
  constructor
  · intro k v hv hlive
    unfold Store.loadFromDoc Store.saveDoc PersistenceManager.serialize
      PersistenceManager.deserialize TTLManager.loadTTLData TTLManager.getAllTTLData
      Store.cleanupExpired TTLManager.getExpiredKeys TTLManager.removeExpiredKeys
    dsimp only
    have hfold := foldl_mset_eq_self (s.ttl.filter fun p => decide (now_s < p.2))
      (nodupKeys_filter s.ttl _ hnt)
    rw [foldl_mset_eq_self s.data hnd]
    rw [hfold]
    rw [hfold]
    cases hget : mget s.ttl k with
    | none =>
      have hfn : mget (s.ttl.filter fun p => decide (now_s < p.2)) k = none :=
        mget_filter_none s.ttl _ k hget
      have hknot : k ∉ ((s.ttl.filter fun p => decide (now_s < p.2)).filter
          (fun p => decide (p.2 ≤ now_l))).map Prod.fst := by
        intro hc
        have hmem := (((s.ttl.filter fun p => decide (now_s < p.2)).filter_sublist
            (p := fun p => decide (p.2 ≤ now_l))).map Prod.fst).mem hc
        have hs := mget_isSome_of_mem_keys _ k hmem
        rw [hfn] at hs
        simp at hs
      constructor
      · rw [mget_foldl_mdel_not_mem _ _ k hknot]
        exact hv
      · rw [mget_foldl_mdel_not_mem _ _ k hknot, hfn]
    | some e =>
      have hle : now_l < e := hlive e hget
      have hse : now_s < e := lt_of_le_of_lt hsl hle
      have hfs : mget (s.ttl.filter fun p => decide (now_s < p.2)) k = some e :=
        mget_filter_some_pos s.ttl _ k e hget (decide_eq_true hse)
      have hknot : k ∉ ((s.ttl.filter fun p => decide (now_s < p.2)).filter
          (fun p => decide (p.2 ≤ now_l))).map Prod.fst :=
        not_mem_keys_filter_of_neg _ _ (nodupKeys_filter s.ttl _ hnt) k e hfs
          (decide_eq_false (not_le.mpr hle))
      constructor
      · rw [mget_foldl_mdel_not_mem _ _ k hknot]
        exact hv
      · rw [mget_foldl_mdel_not_mem _ _ k hknot, hfs]
  · intro d tt ts hd htt
    unfold PersistenceManager.deserialize PersistenceManager.serialize
    dsimp only
    rw [foldl_mset_eq_self d hd, foldl_mset_eq_self tt htt]

/-- C1 witness: the round-trip statement applied to a concrete store with
one permanent pair and one live TTL pair, saved at time 0 and loaded at
time 500. -/
theorem C1_round_trip_witness :
    (∀ k v, mget ([("a", JVal.jnum 7), ("b", JVal.jstr "x")] : MapJS JVal) k = some v →
      Store.liveAt ⟨[("a", JVal.jnum 7), ("b", JVal.jstr "x")], [("b", 2000)], false⟩
        500 k →
      mget (Store.loadFromDoc
        (Store.saveDoc
          ⟨[("a", JVal.jnum 7), ("b", JVal.jstr "x")], [("b", 2000)], false⟩ 0)
        500).data k = some v ∧
      mget (Store.loadFromDoc
        (Store.saveDoc
          ⟨[("a", JVal.jnum 7), ("b", JVal.jstr "x")], [("b", 2000)], false⟩ 0)
        500).ttl k = mget ([("b", 2000)] : TTLData) k) ∧
    (∀ (d : MapJS JVal) (tt : TTLData) (ts : ℚ),
      MapJS.NodupKeys d → MapJS.NodupKeys tt →
      PersistenceManager.deserialize (PersistenceManager.serialize d tt ts) =
        ⟨d, tt⟩) :=
  C1_round_trip ⟨[("a", JVal.jnum 7), ("b", JVal.jstr "x")], [("b", 2000)], false⟩
    0 500 (by decide) (by decide) (by norm_num)

/-! ## Well-formedness preservation (for C8) -/

theorem WF_empty (now : ℚ) : Store.WF Store.empty now := by
  unfold Store.WF
  refine ⟨by simp [Store.empty, MapJS.NodupKeys], by simp [Store.empty, MapJS.NodupKeys], ?_⟩
  intro k e hmem
  simp [Store.empty] at hmem

theorem WF_mono {s : Store} {now now' : ℚ} (hle : now ≤ now') (h : Store.WF s now) :
    Store.WF s now' := by
  unfold Store.WF at h ⊢
  refine ⟨h.1, h.2.1, ?_⟩
  intro k e hmem hlt
  exact h.2.2 k e hmem (lt_of_le_of_lt hle hlt)

theorem WF_set {s s' : Store} {now : ℚ} {key : KeyIn} {v : JVal} {ttl : TTLIn}
    (hset : Store.set s now key v ttl = .ok s') (h : Store.WF s now) :
    Store.WF s' now := by
  unfold Store.WF at h ⊢
  obtain ⟨k, t?, hk, ht, rfl⟩ := set_ok_inversion hset
  cases t? with
  | none =>
    refine ⟨nodupKeys_mset s.data h.1 k v, nodupKeys_mdel s.ttl h.2.1 k, ?_⟩
    intro k' e hmem hlt
    exact mhas_mset_of_mhas s.data k k' v
      (h.2.2 k' e (mem_of_mem_mdel s.ttl k k' e hmem) hlt)
  | some t =>
    refine ⟨nodupKeys_mset s.data h.1 k v, nodupKeys_mset s.ttl h.2.1 k _, ?_⟩
    intro k' e hmem hlt
    rcases mem_or_eq_of_mem_mset s.ttl k _ k' e hmem with hmem' | ⟨rfl, _⟩
    · exact mhas_mset_of_mhas s.data k k' v (h.2.2 k' e hmem' hlt)
    · exact mhas_mset_self s.data k' v

theorem WF_del {s s' : Store} {key : KeyIn} {b : Bool} {now : ℚ}
    (hdel : Store.del s key = .ok (b, s')) (h : Store.WF s now) : Store.WF s' now := by
  unfold Store.WF at h ⊢
  obtain ⟨k, hk, hb, rfl⟩ := del_ok_inversion hdel
  refine ⟨nodupKeys_mdel s.data h.1 k, nodupKeys_mdel s.ttl h.2.1 k, ?_⟩
  intro k' e hmem hlt
  by_cases hkk : k' = k
  · subst hkk
    exact absurd hmem (not_mem_mdel_self s.ttl h.2.1 k' e)
  · unfold mhas
    rw [mget_mdel_ne s.data k k' (Ne.symm hkk)]
    exact h.2.2 k' e (mem_of_mem_mdel s.ttl k k' e hmem) hlt

/-- The state coming out of a successful `get` is either the unchanged
store or the result of the lazy delete. -/
theorem get_ok_state {s s' : Store} {now : ℚ} {key : KeyIn} {r : Option JVal}
    (hget : Store.get s now key = .ok (r, s')) :
    s' = s ∨ ∃ b, Store.del s key = .ok (b, s') := by
  cases hk : validateKey key with
  | error e =>
    unfold Store.get at hget
    rw [hk] at hget
    simp [Bind.bind, Except.bind] at hget
  | ok k =>
    unfold Store.get at hget
    rw [hk] at hget
    simp only [Bind.bind, Except.bind] at hget
    by_cases hexp : TTLManager.isExpired s.ttl now k = true
    · rw [if_pos hexp] at hget
      cases hdel : Store.del s key with
      | error e =>
        rw [hdel] at hget
        simp at hget
      | ok p =>
        obtain ⟨b, s''⟩ := p
        rw [hdel] at hget
        simp only [Pure.pure, Except.pure, Except.ok.injEq, Prod.mk.injEq] at hget
        right
        exact ⟨b, by rw [hget.2]⟩
    · rw [if_neg hexp] at hget
      simp only [Pure.pure, Except.pure, Except.ok.injEq, Prod.mk.injEq] at hget
      exact Or.inl hget.2.symm

/-- Same for `has`. -/
theorem hasKey_ok_state {s s' : Store} {now : ℚ} {key : KeyIn} {b : Bool}
    (hh : Store.hasKey s now key = .ok (b, s')) :
    s' = s ∨ ∃ b', Store.del s key = .ok (b', s') := by
  cases hk : validateKey key with
  | error e =>
    unfold Store.hasKey at hh
    rw [hk] at hh
    simp [Bind.bind, Except.bind] at hh
  | ok k =>
    unfold Store.hasKey at hh
    rw [hk] at hh
    simp only [Bind.bind, Except.bind] at hh
    by_cases hexp : TTLManager.isExpired s.ttl now k = true
    · rw [if_pos hexp] at hh
      cases hdel : Store.del s key with
      | error e =>
        rw [hdel] at hh
        simp at hh
      | ok p =>
        obtain ⟨b', s''⟩ := p
        rw [hdel] at hh
        simp only [Pure.pure, Except.pure, Except.ok.injEq, Prod.mk.injEq] at hh
        right
        exact ⟨b', by rw [hh.2]⟩
    · rw [if_neg hexp] at hh
      simp only [Pure.pure, Except.pure, Except.ok.injEq, Prod.mk.injEq] at hh
      exact Or.inl hh.2.symm

/-- A `has` that answers `true` leaves the store unchanged and certifies
that the key is present in the data map. -/
theorem hasKey_ok_true_inversion {s s' : Store} {now : ℚ} {key : KeyIn}
    (hh : Store.hasKey s now key = .ok (true, s')) :
    s' = s ∧ ∃ k, validateKey key = .ok k ∧ mhas s.data k = true := by
  cases hk : validateKey key with
  | error e =>
    unfold Store.hasKey at hh
    rw [hk] at hh
    simp [Bind.bind, Except.bind] at hh
  | ok k =>
    unfold Store.hasKey at hh
    rw [hk] at hh
    simp only [Bind.bind, Except.bind] at hh
    by_cases hexp : TTLManager.isExpired s.ttl now k = true
    · rw [if_pos hexp] at hh
      cases hdel : Store.del s key with
      | error e =>
        rw [hdel] at hh
        simp at hh
      | ok p =>
        obtain ⟨b', s''⟩ := p
        rw [hdel] at hh
        simp only [Pure.pure, Except.pure, Except.ok.injEq, Prod.mk.injEq] at hh
        exact absurd hh.1 (by simp)
    · rw [if_neg hexp] at hh
      simp only [Pure.pure, Except.pure, Except.ok.injEq, Prod.mk.injEq] at hh
      exact ⟨hh.2.symm, k, rfl, hh.1⟩

theorem WF_get {s s' : Store} {now : ℚ} {key : KeyIn} {r : Option JVal}
    (hget : Store.get s now key = .ok (r, s')) (h : Store.WF s now) :
    Store.WF s' now := by
  rcases get_ok_state hget with rfl | ⟨b, hdel⟩
  · exact h
  · exact WF_del hdel h

theorem WF_hasKey {s s' : Store} {now : ℚ} {key : KeyIn} {b : Bool}
    (hh : Store.hasKey s now key = .ok (b, s')) (h : Store.WF s now) :
    Store.WF s' now := by
  rcases hasKey_ok_state hh with rfl | ⟨b', hdel⟩
  · exact h
  · exact WF_del hdel h

theorem WF_clear {s : Store} {now : ℚ} (_h : Store.WF s now) :
    Store.WF (Store.clear s) now := by
  unfold Store.WF Store.clear
  refine ⟨by simp [MapJS.NodupKeys], by simp [MapJS.NodupKeys], ?_⟩
  intro k e hmem
  simp at hmem

theorem WF_cleanup {s : Store} {now : ℚ} (h : Store.WF s now) :
    Store.WF (Store.cleanupExpired s now) now := by
  unfold Store.WF at h ⊢
  unfold Store.cleanupExpired TTLManager.getExpiredKeys TTLManager.removeExpiredKeys
  dsimp only
  refine ⟨nodupKeys_foldl_mdel _ _ h.1, nodupKeys_foldl_mdel _ _ h.2.1, ?_⟩
  intro k e hmem hlt
  have hmem' : (k, e) ∈ s.ttl := mem_of_mem_foldl_mdel _ _ k e hmem
  have hknot : k ∉ (s.ttl.filter fun p => decide (p.2 ≤ now)).map Prod.fst := by
    intro hc
    have hnone := mget_foldl_mdel_of_mem _ s.ttl h.2.1 k hc
    have hsome := mget_isSome_of_mem _ k e hmem
    rw [hnone] at hsome
    simp at hsome
  unfold mhas
  rw [mget_foldl_mdel_not_mem _ _ k hknot]
  exact h.2.2 k e hmem' hlt

theorem WF_setTTLOp {s s' : Store} {now : ℚ} {key : KeyIn} {ttl : TTLIn} {b : Bool}
    (hop : Store.setTTLOp s now key ttl = .ok (b, s')) (h : Store.WF s now) :
    Store.WF s' now := by
  unfold Store.setTTLOp at hop
  cases ht : validateTTL ttl with
  | error e =>
    rw [ht] at hop
    simp [Bind.bind, Except.bind] at hop
  | ok t? =>
    rw [ht] at hop
    simp only [Bind.bind, Except.bind] at hop
    cases hhas : Store.hasKey s now key with
    | error e =>
      rw [hhas] at hop
      simp at hop
    | ok p =>
      obtain ⟨present, s''⟩ := p
      rw [hhas] at hop
      cases present with
      | false =>
        have hop' : (pure (false, s'') : Except String (Bool × Store)) = .ok (b, s') :=
          hop
        simp only [Pure.pure, Except.pure, Except.ok.injEq, Prod.mk.injEq] at hop'
        rw [← hop'.2]
        exact WF_hasKey hhas h
      | true =>
        obtain ⟨rfl, k0, hk0, hmh⟩ := hasKey_ok_true_inversion hhas
        cases hk : validateKey key with
        | error e =>
          rw [hk] at hop
          simp [Bind.bind, Except.bind] at hop
        | ok k =>
          rw [hk] at hop
          have hop' : (Except.ok (true,
              { s'' with ttl := TTLManager.setTTL s''.ttl now k (t?.getD 0),
                         dirty := true }) : Except String (Bool × Store)) =
              .ok (b, s') := hop
          injection hop' with hp
          injection hp with h1 h2
          rw [← h2]
          have hkk : k = k0 := by
            rw [hk0] at hk
            injection hk with hkk
            exact hkk.symm
          subst hkk
          unfold Store.WF at h ⊢
          refine ⟨h.1, nodupKeys_mset s''.ttl h.2.1 k _, ?_⟩
          intro k' e hmem hlt
          rcases mem_or_eq_of_mem_mset s''.ttl k _ k' e hmem with hmem' | ⟨rfl, _⟩
          · exact h.2.2 k' e hmem' hlt
          · exact hmh

theorem WF_clearTTLOp {s : Store} {now : ℚ} (key : String) (h : Store.WF s now) :
    Store.WF (Store.clearTTLOp s key).2 now := by
  unfold Store.WF at h ⊢
  unfold Store.clearTTLOp TTLManager.clearTTL
  dsimp only
  refine ⟨h.1, nodupKeys_mdel s.ttl h.2.1 key, ?_⟩
  intro k e hmem hlt
  exact h.2.2 k e (mem_of_mem_mdel s.ttl key k e hmem) hlt

theorem WF_batchGo {now : ℚ} (ops : List RawOp) :
    ∀ (s : Store) (acc : List Store.BatchResult), Store.WF s now →
      (∀ res s', Store.batchGo s now ops acc = .ok (res, s') → Store.WF s' now) ∧
      (∀ e s', Store.batchGo s now ops acc = .error (e, s') → Store.WF s' now) := by
  induction ops with
  | nil =>
    intro s acc hwf
    constructor
    · intro res s' hh
      have hh' : (Except.ok (acc, s) :
          Except (String × Store) (List Store.BatchResult × Store)) = .ok (res, s') := hh
      injection hh' with hp
      injection hp with h1 h2
      rw [← h2]
      exact hwf
    · intro e s' hh
      exact Except.noConfusion hh
  | cons op rest ih =>
    intro s acc hwf
    cases op with
    | notObject => exact ih s acc hwf
    | badType => exact ih s acc hwf
    | setOp key v t? =>
      have hred : Store.batchGo s now (RawOp.setOp key v t? :: rest) acc =
          (match Store.set s now key v (t?.getD TTLIn.null) with
           | .error e => .error (e, s)
           | .ok s₁ => Store.batchGo s₁ now rest (acc ++ [⟨"set", key, true⟩])) := rfl
      constructor
      · intro res s' hh
        rw [hred] at hh
        cases hset : Store.set s now key v (t?.getD TTLIn.null) with
        | error e0 =>
          rw [hset] at hh
          exact Except.noConfusion hh
        | ok s₁ =>
          rw [hset] at hh
          exact (ih s₁ _ (WF_set hset hwf)).1 res s' hh
      · intro e s' hh
        rw [hred] at hh
        cases hset : Store.set s now key v (t?.getD TTLIn.null) with
        | error e0 =>
          rw [hset] at hh
          have hh' : (Except.error (e0, s) :
              Except (String × Store) (List Store.BatchResult × Store)) =
                .error (e, s') := hh
          injection hh' with hp
          injection hp with h1 h2
          rw [← h2]
          exact hwf
        | ok s₁ =>
          rw [hset] at hh
          exact (ih s₁ _ (WF_set hset hwf)).2 e s' hh
    | delOp key =>
      have hred : Store.batchGo s now (RawOp.delOp key :: rest) acc =
          (match Store.del s key with
           | .error e => .error (e, s)
           | .ok (deleted, s₁) =>
              Store.batchGo s₁ now rest (acc ++ [⟨"delete", key, deleted⟩])) := rfl
      constructor
      · intro res s' hh
        rw [hred] at hh
        cases hdel : Store.del s key with
        | error e0 =>
          rw [hdel] at hh
          exact Except.noConfusion hh
        | ok p =>
          obtain ⟨deleted, s₁⟩ := p
          rw [hdel] at hh
          exact (ih s₁ _ (WF_del hdel hwf)).1 res s' hh
      · intro e s' hh
        rw [hred] at hh
        cases hdel : Store.del s key with
        | error e0 =>
          rw [hdel] at hh
          have hh' : (Except.error (e0, s) :
              Except (String × Store) (List Store.BatchResult × Store)) =
                .error (e, s') := hh
          injection hh' with hp
          injection hp with h1 h2
          rw [← h2]
          exact hwf
        | ok p =>
          obtain ⟨deleted, s₁⟩ := p
          rw [hdel] at hh
          exact (ih s₁ _ (WF_del hdel hwf)).2 e s' hh

theorem WF_batch_ok {s s' : Store} {now : ℚ} {ops : List RawOp}
    {res : List Store.BatchResult}
    (hb : Store.batch s now ops = .ok (res, s')) (h : Store.WF s now) :
    Store.WF s' now := by
  unfold Store.batch at hb
  cases hv : validateBatchOperations ops with
  | error e =>
    rw [hv] at hb
    exact Except.noConfusion hb
  | ok u =>
    rw [hv] at hb
    exact (WF_batchGo ops s [] h).1 res s' hb

theorem WF_batch_err {s s' : Store} {now : ℚ} {ops : List RawOp} {e : String}
    (hb : Store.batch s now ops = .error (e, s')) (h : Store.WF s now) :
    Store.WF s' now := by
  unfold Store.batch at hb
  cases hv : validateBatchOperations ops with
  | error e0 =>
    rw [hv] at hb
    have hb' : (Except.error (e0, s) :
        Except (String × Store) (List Store.BatchResult × Store)) = .error (e, s') := hb
    injection hb' with hp
    injection hp with h1 h2
    rw [← h2]
    exact h
  | ok u =>
    rw [hv] at hb
    exact (WF_batchGo ops s [] h).2 e s' hb

/-- C8: every state reachable from a fresh empty store by the public
operations is well-formed — every not-yet-expired TTL record's key is
present in the data map — and therefore every key of the serialization
snapshot `getAllTTLData` (which prunes expired entries) is a key of the
data map at serialization time. -/
theorem C8_ttl_subset_data (s : Store) (now : ℚ) (h : Store.Reachable s now) :
    Store.WF s now ∧
    ∀ kk ∈ (TTLManager.getAllTTLData s.ttl now).map Prod.fst,
      kk ∈ s.data.map Prod.fst := by
  have hwf : Store.WF s now := by
    induction h with
    | init now => exact WF_empty now
    | tick hr hle ih => exact WF_mono hle ih
    | setOp hr hs ih => exact WF_set hs ih
    | delOp hr hs ih => exact WF_del hs ih
    | getOp hr hs ih => exact WF_get hs ih
    | hasOp hr hs ih => exact WF_hasKey hs ih
    | clearOp hr ih => exact WF_clear ih
    | cleanupOp hr ih => exact WF_cleanup ih
    | setTTLOp hr hs ih => exact WF_setTTLOp hs ih
    | clearTTLOp hr ih => exact WF_clearTTLOp _ ih
    | batchOk hr hs ih => exact WF_batch_ok hs ih
    | batchErr hr hs ih => exact WF_batch_err hs ih
  refine ⟨hwf, ?_⟩
  intro kk hk
  unfold TTLManager.getAllTTLData at hk
  obtain ⟨⟨kk', e⟩, hmemf, heq⟩ := List.mem_map.mp hk
  dsimp only at heq
  subst heq
  obtain ⟨hmem, hpe⟩ := List.mem_filter.mp hmemf
  have hlt : now < e := of_decide_eq_true hpe
  have hmh := hwf.2.2 kk' e hmem hlt
  unfold mhas at hmh
  obtain ⟨v, hv⟩ := Option.isSome_iff_exists.mp hmh
  exact mem_keys_of_mget_some s.data kk' hv

/-- C8 witness: the invariant at the state reached from the empty store by
one `set` with a one-second TTL at time 0. -/
theorem C8_ttl_subset_data_witness :
    Store.WF ⟨[("a", JVal.jbool true)], [("a", (0 : ℚ) + 1 * 1000)], true⟩ 0 ∧
    ∀ kk ∈ (TTLManager.getAllTTLData [("a", (0 : ℚ) + 1 * 1000)] 0).map Prod.fst,
      kk ∈ ([("a", JVal.jbool true)] : MapJS JVal).map Prod.fst :=
  C8_ttl_subset_data ⟨[("a", JVal.jbool true)], [("a", (0 : ℚ) + 1 * 1000)], true⟩ 0
    (@Store.Reachable.setOp Store.empty
      ⟨[("a", JVal.jbool true)], [("a", (0 : ℚ) + 1 * 1000)], true⟩ 0
      (KeyIn.str "a") (JVal.jbool true) (TTLIn.num 1)
      (Store.Reachable.init 0) rfl)

end BreezeDB
